import Mathlib

/-!
Verification of the Rust code emitter and dependency analyzer of
`serde-generate` (file `src/serde-generate/src/rust.rs`).

The data model (`Format`, `VariantFormat`, `ContainerFormat`, `Named`) comes
from the `serde-reflection` crate.  Maps (`BTreeMap`) are embedded as
association lists iterated in key order; `HashSet`s of names are embedded as
lists queried only through membership.  Output written to the `Write` sink is
embedded as an accumulated `String`; a Rust `panic!` / failed `assert_eq!`
during emission is embedded as a `false` success flag paired with the text
that was written before the failure (Rust evaluates the arguments of
`write!`/`writeln!` before writing, so a panicking argument produces no text
for that line).  Literal braces inside strings are written with the escapes
\x7b and \x7d.
-/

namespace SerdeGen

/-- `serde_reflection::Named<T>`: a named value. -/
structure Named (T : Type) where
  name : String
  value : T
deriving Repr

/-- `serde_reflection::Format`: the recursive description of one value's
shape.  The payload of `Variable` (an unresolved placeholder slot) is never
consulted by the emitter (it matches `Variable(_)` and panics), so it is
embedded without a payload. -/
inductive Format where
  | TypeName (x : String)
  | Unit
  | Bool
  | I8 | I16 | I32 | I64 | I128
  | U8 | U16 | U32 | U64 | U128
  | F32 | F64
  | Char
  | Str
  | Bytes
  | Option (f : Format)
  | Seq (f : Format)
  | Map (key : Format) (value : Format)
  | Tuple (formats : List Format)
  | TupleArray (content : Format) (size : Nat)
  | Variable
deriving Repr

/-- `serde_reflection::VariantFormat`: the shape of one enum variant. -/
inductive VariantFormat where
  | Unit
  | NewType (f : Format)
  | Tuple (formats : List Format)
  | Struct (fields : List (Named Format))
  | Variable
deriving Repr

/-- `serde_reflection::ContainerFormat`.  The `Enum` payload is a
`BTreeMap<u32, Named<VariantFormat>>`, embedded as an association list that
is iterated in ascending key order. -/
inductive ContainerFormat where
  | UnitStruct
  | NewTypeStruct (f : Format)
  | TupleStruct (formats : List Format)
  | Struct (fields : List (Named Format))
  | Enum (variants : List (Nat × Named VariantFormat))
deriving Repr

/-- A `Registry` (`BTreeMap<String, ContainerFormat>`) as an association
list in key order. -/
abbrev Registry := List (String × ContainerFormat)

/-- `DocComments = BTreeMap<Vec<String>, String>` as an association list. -/
abbrev DocComments := List (List String × String)

/-- `ExternalDefinitions = BTreeMap<String, Vec<String>>` as an association
list in key order. -/
abbrev ExternalDefinitions := List (String × List String)

mutual
/-- `rust.rs: quote_type`.  The second argument embeds
`known_sizes: Option<&HashSet<&str>>`; the result is `none` exactly when the
Rust function panics (`Variable(_) => panic!("unexpected value")`). -/
def quote_type : Format → Option (List String) → Option String
  | .TypeName x, known_sizes =>
      match known_sizes with
      | some set => if set.contains x then some x else some ("Box<" ++ x ++ ">")
      | none => some x
  | .Unit, _ => some "()"
  | .Bool, _ => some "bool"
  | .I8, _ => some "i8"
  | .I16, _ => some "i16"
  | .I32, _ => some "i32"
  | .I64, _ => some "i64"
  | .I128, _ => some "i128"
  | .U8, _ => some "u8"
  | .U16, _ => some "u16"
  | .U32, _ => some "u32"
  | .U64, _ => some "u64"
  | .U128, _ => some "u128"
  | .F32, _ => some "f32"
  | .F64, _ => some "f64"
  | .Char, _ => some "char"
  | .Str, _ => some "String"
  | .Bytes, _ => some "Bytes"
  | .Option f, known_sizes =>
      (quote_type f known_sizes).map (fun s => "Option<" ++ s ++ ">")
  | .Seq f, _ =>
      (quote_type f none).map (fun s => "Vec<" ++ s ++ ">")
  | .Map k v, _ =>
      (quote_type k none).bind (fun a =>
        (quote_type v none).map (fun b => "Map<" ++ a ++ ", " ++ b ++ ">"))
  | .Tuple formats, known_sizes =>
      (quote_types_list formats known_sizes).map
        (fun l => "(" ++ String.intercalate ", " l ++ ")")
  | .TupleArray content size, known_sizes =>
      (quote_type content known_sizes).map
        (fun s => "[" ++ s ++ "; " ++ toString size ++ "]")
  | .Variable, _ => none

/-- The element-wise quoting inside `rust.rs: quote_types` (which maps
`quote_type` over a slice and joins with `", "`); `none` when any element
panics. -/
def quote_types_list : List Format → Option (List String) → Option (List String)
  | [], _ => some []
  | f :: rest, known_sizes =>
      match quote_type f known_sizes, quote_types_list rest known_sizes with
      | some s, some l => some (s :: l)
      | _, _ => none
end

/-- `rust.rs: quote_types`. -/
def quote_types (formats : List Format) (known_sizes : Option (List String)) :
    Option String :=
  (quote_types_list formats known_sizes).map (String.intercalate ", ")

mutual
/-- Whether a `Format` contains the `Variable` placeholder anywhere. -/
def Format.hasVariable : Format → Bool
  | .TypeName _ => false
  | .Unit | .Bool => false
  | .I8 | .I16 | .I32 | .I64 | .I128 => false
  | .U8 | .U16 | .U32 | .U64 | .U128 => false
  | .F32 | .F64 | .Char | .Str | .Bytes => false
  | .Option f => f.hasVariable
  | .Seq f => f.hasVariable
  | .Map k v => k.hasVariable || v.hasVariable
  | .Tuple formats => formatsHaveVariable formats
  | .TupleArray content _ => content.hasVariable
  | .Variable => true

/-- Whether any format in a list contains `Variable`. -/
def formatsHaveVariable : List Format → Bool
  | [] => false
  | f :: rest => f.hasVariable || formatsHaveVariable rest
end

/-- `" ".repeat(n)`. -/
def spaces (n : Nat) : String := String.mk (List.replicate n ' ')

/-- Splitting a character list on `'\n'` (the semantics of
`str::split('\n')`). -/
def splitNL : List Char → List (List Char)
  | [] => [[]]
  | c :: rest =>
      match splitNL rest with
      | [] => [[]]
      | l :: ls => if c = '\n' then [] :: l :: ls else (c :: l) :: ls

/-- Strip one trailing `'\r'` from a line, as `str::lines()` does. -/
def stripCR (l : List Char) : List Char :=
  if l.getLast? = some '\r' then l.dropLast else l

/-- Rust's `str::lines()`: split on `\n`, drop the final empty segment
produced by a trailing newline, and strip one trailing `\r` per line. -/
def rustLines (s : String) : List String :=
  let parts := splitNL s.data
  let parts := if parts.getLast? = some [] then parts.dropLast else parts
  parts.map (fun l => String.mk (stripCR l))

/-- `textwrap::indent(s, pfx)` (textwrap 0.11): for each line, emit
`pfx ++ line` when the line is not pure whitespace and nothing (an empty
line) when it is, terminating every line with `\n`. -/
def textwrap_indent (s pfx : String) : String :=
  String.join ((rustLines s).map
    (fun l => (if l.data.all Char.isWhitespace then "" else pfx ++ l) ++
      "\n"))

/-- `String::replace(s, "\n\n", repl)`: replace each (non-overlapping,
leftmost-first) occurrence of two consecutive newlines. -/
def replaceNLNL (repl : List Char) : List Char → List Char
  | '\n' :: '\n' :: rest => repl ++ replaceNLNL repl rest
  | c :: rest => c :: replaceNLNL repl rest
  | [] => []

/-- `BTreeMap::get` on the doc-comment map. -/
def docLookup (comments : DocComments) (k : List String) : Option String :=
  (comments.find? (fun p => p.1 = k)).map (fun p => p.2)

/-- `rust.rs: output_comment`.  Writes nothing when the qualified name has no
entry; infallible, so it returns the new accumulated output directly. -/
def output_comment (acc : String) (comments : DocComments) (indentation : Nat)
    (qualified_name : List String) : String :=
  match docLookup comments qualified_name with
  | some doc =>
      let pfx := spaces indentation ++ "/// "
      let empty_line := "\n" ++ spaces indentation ++ "///\n"
      let text := String.mk
        (replaceNLNL empty_line.data (textwrap_indent doc pfx).data)
      acc ++ "\n" ++ text
  | none => acc

/-- `rust.rs: output_fields`.  Returns the accumulated output and a success
flag (`false` embeds a panic inside `quote_type`; the field's comment has
already been written at that point, but not the field line itself). -/
def output_fields (acc : String) (comments : DocComments) (indentation : Nat)
    (base : List String) (fields : List (Named Format)) (is_pub : Bool)
    (known_sizes : List String) : String × Bool :=
  let tab := spaces indentation ++ (if is_pub then " pub " else "")
  match fields with
  | [] => (acc, true)
  | field :: rest =>
      let acc1 := output_comment acc comments 4 (base ++ [field.name])
      match quote_type field.value (some known_sizes) with
      | none => (acc1, false)
      | some ty =>
          output_fields (acc1 ++ tab ++ field.name ++ ": " ++ ty ++ ",\n")
            comments indentation base rest is_pub known_sizes

/-- `rust.rs: output_variant`. -/
def output_variant (acc : String) (comments : DocComments) (base name : String)
    (variant : VariantFormat) (known_sizes : List String) : String × Bool :=
  match variant with
  | .Unit => (acc ++ "    " ++ name ++ ",\n", true)
  | .NewType f =>
      match quote_type f (some known_sizes) with
      | none => (acc, false)
      | some ty => (acc ++ "    " ++ name ++ "(" ++ ty ++ "),\n", true)
  | .Tuple formats =>
      match quote_types formats (some known_sizes) with
      | none => (acc, false)
      | some tys => (acc ++ "    " ++ name ++ "(" ++ tys ++ "),\n", true)
  | .Struct fields =>
      let acc1 := acc ++ "    " ++ name ++ " \x7b\n"
      let r := output_fields acc1 comments 8 [base, name] fields false known_sizes
      if r.2 then (r.1 ++ "    \x7d,\n", true) else r
  | .Variable => (acc, false)

/-- The loop body of `rust.rs: output_variants`, with the running
`expected_index` made explicit.  `assert_eq!(*index, expected_index)` is
embedded as a `false` success flag carrying the output written so far. -/
def output_variants_from (acc : String) (comments : DocComments) (base : String)
    (variants : List (Nat × Named VariantFormat)) (expected : Nat)
    (known_sizes : List String) : String × Bool :=
  match variants with
  | [] => (acc, true)
  | (index, variant) :: rest =>
      if index = expected then
        let acc1 := output_comment acc comments 4 [base, variant.name]
        let r := output_variant acc1 comments base variant.name variant.value
          known_sizes
        if r.2 then
          output_variants_from r.1 comments base rest (expected + 1) known_sizes
        else r
      else (acc, false)

/-- `rust.rs: output_variants` (the `BTreeMap` is iterated in ascending key
order, which is the list order of the embedding). -/
def output_variants (acc : String) (comments : DocComments) (base : String)
    (variants : List (Nat × Named VariantFormat))
    (known_sizes : List String) : String × Bool :=
  output_variants_from acc comments base variants 0 known_sizes

/-- `rust.rs: output_container`. -/
def output_container (acc : String) (comments : DocComments)
    (with_derive_macros track_visibility : Bool) (name : String)
    (format : ContainerFormat) (known_sizes : List String) : String × Bool :=
  let acc := output_comment acc comments 0 [name]
  let pfx :=
    (if with_derive_macros then
      "#[derive(Serialize, Deserialize, Clone, Debug, PartialEq, PartialOrd)]\n"
    else "") ++ (if track_visibility then "pub " else "")
  match format with
  | .UnitStruct => (acc ++ pfx ++ "struct " ++ name ++ ";\n\n", true)
  | .NewTypeStruct f =>
      match quote_type f (some known_sizes) with
      | none => (acc, false)
      | some ty =>
          (acc ++ pfx ++ "struct " ++ name ++ "(" ++
            (if track_visibility then "pub " else "") ++ ty ++ ");\n\n", true)
  | .TupleStruct formats =>
      match quote_types formats (some known_sizes) with
      | none => (acc, false)
      | some tys =>
          (acc ++ pfx ++ "struct " ++ name ++ "(" ++ tys ++ ");\n\n", true)
  | .Struct fields =>
      let acc1 := acc ++ pfx ++ "struct " ++ name ++ " \x7b\n"
      let r := output_fields acc1 comments 4 [name] fields track_visibility
        known_sizes
      if r.2 then (r.1 ++ "\x7d\n\n", true) else r
  | .Enum variants =>
      let acc1 := acc ++ pfx ++ "enum " ++ name ++ " \x7b\n"
      let r := output_variants acc1 comments name variants known_sizes
      if r.2 then (r.1 ++ "\x7d\n\n", true) else r

/-- The import line `writeln!(out, "use {}::{{{}}};", module, defs)` emitted
by `output_preamble` for one external module. -/
def use_line (module : String) (definitions : List String) : String :=
  "use " ++ module ++ "::\x7b" ++ String.intercalate ", " definitions ++
    "\x7d;"

/-- The lines written by `rust.rs: output_preamble`, one list element per
output line (each `writeln!` contributes its lines; the final
`writeln!(out, "type Bytes = Vec<u8>;\n")` contributes two). -/
def output_preamble_lines (with_derive_macros : Bool)
    (external_definitions : ExternalDefinitions) : List String :=
  let external_names := (external_definitions.map Prod.snd).flatten
  ["#![allow(unused_imports)]"]
  ++ (if external_names.contains "Map" then []
      else ["use std::collections::BTreeMap as Map;"])
  ++ (if with_derive_macros then ["use serde::\x7bSerialize, Deserialize\x7d;"]
      else [])
  ++ (if with_derive_macros && !external_names.contains "Bytes" then
        ["use serde_bytes::ByteBuf as Bytes;"]
      else [])
  ++ (external_definitions.filterMap (fun p =>
        if p.1 = "" then none else some (use_line p.1 p.2)))
  ++ [""]
  ++ (if !with_derive_macros && !external_names.contains "Bytes" then
        ["type Bytes = Vec<u8>;", ""]
      else [])

/-- `rust.rs: output_preamble` as the text it writes (infallible). -/
def output_preamble (with_derive_macros : Bool)
    (external_definitions : ExternalDefinitions) : String :=
  String.join ((output_preamble_lines with_derive_macros
    external_definitions).map (fun l => l ++ "\n"))

mutual
/-- Modelled from the spec: every `TypeName` occurring anywhere in a format
(the analyzer module of this repository is not under `src/`; §3 and §7
require every reference, in any position, to resolve to a registry entry or
an externally-supplied name). -/
def format_refs : Format → List String
  | .TypeName x => [x]
  | .Option f => format_refs f
  | .Seq f => format_refs f
  | .Map k v => format_refs k ++ format_refs v
  | .Tuple formats => formats_refs formats
  | .TupleArray content _ => format_refs content
  | _ => []

/-- Modelled from the spec: all `TypeName`s of a list of formats. -/
def formats_refs : List Format → List String
  | [] => []
  | f :: rest => format_refs f ++ formats_refs rest
end

mutual
/-- Modelled from the spec (§4.1): the `TypeName`s of a format occurring in
hard-dependency positions — through `Option`, `Tuple` and fixed-array
content, but not strictly inside a `Seq` element or `Map` key/value. -/
def format_hard_refs : Format → List String
  | .TypeName x => [x]
  | .Option f => format_hard_refs f
  | .Seq _ => []
  | .Map _ _ => []
  | .Tuple formats => formats_hard_refs formats
  | .TupleArray content _ => format_hard_refs content
  | _ => []

/-- Modelled from the spec: hard-position `TypeName`s of a list of formats. -/
def formats_hard_refs : List Format → List String
  | [] => []
  | f :: rest => format_hard_refs f ++ formats_hard_refs rest
end

/-- Modelled from the spec: all `TypeName`s referenced by one variant. -/
def variant_refs : VariantFormat → List String
  | .Unit => []
  | .NewType f => format_refs f
  | .Tuple formats => formats_refs formats
  | .Struct fields => formats_refs (fields.map Named.value)
  | .Variable => []

/-- Modelled from the spec: hard-position `TypeName`s of one variant (variant
payloads are direct fields/tuple elements of the container, hence hard). -/
def variant_hard_refs : VariantFormat → List String
  | .Unit => []
  | .NewType f => format_hard_refs f
  | .Tuple formats => formats_hard_refs formats
  | .Struct fields => formats_hard_refs (fields.map Named.value)
  | .Variable => []

/-- Modelled from the spec: all `TypeName`s referenced by a container. -/
def container_refs : ContainerFormat → List String
  | .UnitStruct => []
  | .NewTypeStruct f => format_refs f
  | .TupleStruct formats => formats_refs formats
  | .Struct fields => formats_refs (fields.map Named.value)
  | .Enum variants => (variants.map (fun kv => variant_refs kv.2.value)).flatten

/-- Modelled from the spec (§4.1): the hard dependencies of a container. -/
def container_hard_refs : ContainerFormat → List String
  | .UnitStruct => []
  | .NewTypeStruct f => format_hard_refs f
  | .TupleStruct formats => formats_hard_refs formats
  | .Struct fields => formats_hard_refs (fields.map Named.value)
  | .Enum variants =>
      (variants.map (fun kv => variant_hard_refs kv.2.value)).flatten

/-- Modelled from the spec:
`analyzer::get_dependency_map_with_external_dependencies` is code of this
repository that is not under `src/` (only `rust.rs` calls it).  Per §4.1 it
builds the map from each to-be-emitted container name to its hard
dependencies among the to-be-emitted names; per §7 a `TypeName` that
resolves to neither the registry nor the external-definition set is a fatal,
descriptive error; per §4.3 externally-defined names are never emitted. -/
def get_dependency_map_with_external_dependencies (registry : Registry)
    (external : List String) :
    Except String (List (String × List String)) :=
  let names := registry.map Prod.fst
  match (registry.map (fun p => container_refs p.2)).flatten.find?
      (fun r => !(names.contains r || external.contains r)) with
  | some r => .error ("dangling reference " ++ r)
  | none =>
      .ok (registry.filterMap (fun p =>
        if external.contains p.1 then none
        else some (p.1, (container_hard_refs p.2).filter
          (fun d => names.contains d && !external.contains d))))

/-- Modelled from the spec: `analyzer::get_dependency_map` (no external
definitions). -/
def get_dependency_map (registry : Registry) :
    Except String (List (String × List String)) :=
  get_dependency_map_with_external_dependencies registry []

/-- Whether every dependency in `deps` has already been emitted. -/
def depsSat (emitted : List String) (deps : List String) : Bool :=
  deps.all (fun d => emitted.contains d)

/-- Removal of the first occurrence of a node from the work list. -/
def eraseN : List (String × List String) → (String × List String) →
    List (String × List String)
  | [], _ => []
  | x :: xs, a => if x = a then xs else x :: eraseN xs a

/-- Modelled from the spec (§4.1): the Kahn-style loop of
`analyzer::best_effort_topological_sort` — repeatedly emit a node with no
unresolved hard dependency; when none exists (a dependency cycle) fall back
deterministically, appending the unresolved remainder in map (key) order. -/
def kahnLoop : Nat → List (String × List String) → List String → List String
  | 0, remaining, emitted => emitted ++ remaining.map Prod.fst
  | fuel + 1, remaining, emitted =>
      match remaining.find? (fun p => depsSat emitted p.2) with
      | none => emitted ++ remaining.map Prod.fst
      | some p => kahnLoop fuel (eraseN remaining p) (emitted ++ [p.1])

/-- Modelled from the spec: `analyzer::best_effort_topological_sort`. -/
def best_effort_topological_sort (graph : List (String × List String)) :
    List String :=
  kahnLoop graph.length graph []

/-- `registry[name]` lookup (the map is an association list). -/
def registryGet (registry : Registry) (name : String) : Option ContainerFormat :=
  (registry.find? (fun p => p.1 = name)).map (fun p => p.2)

/-- The emission loop of
`rust.rs: output_with_external_dependencies_and_comments` (lines 49-61):
render each entry with the current known set, then insert its name.  A
missing registry key (`registry[name]` panics in Rust) and any panic inside
`output_container` short-circuit with the output written so far. -/
def emitLoop (registry : Registry) (comments : DocComments)
    (with_derive_macros : Bool) :
    List String → List String → String → String × Bool
  | [], _, acc => (acc, true)
  | name :: rest, known_sizes, acc =>
      match registryGet registry name with
      | none => (acc, false)
      | some format =>
          let r := output_container acc comments with_derive_macros true name
            format known_sizes
          if r.2 then
            emitLoop registry comments with_derive_macros rest
              (known_sizes ++ [name]) r.1
          else r

/-- `external_definitions.values().cloned().flatten().collect()` (only
membership in the resulting set is ever consulted). -/
def external_names_of (external_definitions : ExternalDefinitions) :
    List String :=
  (external_definitions.map Prod.snd).flatten

/-- `rust.rs: output_with_external_dependencies_and_comments`.  An analyzer
error is returned before anything is written. -/
def output_with_external_dependencies_and_comments
    (with_derive_macros : Bool) (registry : Registry)
    (external_definitions : ExternalDefinitions)
    (comments : DocComments) : String × Bool :=
  let external_names := external_names_of external_definitions
  match get_dependency_map_with_external_dependencies registry external_names with
  | .error _ => ("", false)
  | .ok dependencies =>
      let entries := best_effort_topological_sort dependencies
      let acc := output_preamble with_derive_macros external_definitions
      emitLoop registry comments with_derive_macros entries external_names acc

/-- `rust.rs: output`. -/
def output (with_derive_macros : Bool) (registry : Registry) : String × Bool :=
  output_with_external_dependencies_and_comments with_derive_macros registry
    [] []

mutual
/-- The indirection policy exactly as worded by the spec (§4.1 and §4.3),
for comparison with `quote_type`: the `hard` flag records whether the
current position is a hard-dependency position (direct field, tuple
element, optional payload, fixed-array element); a `TypeName` in a hard
position whose target is not in the known set renders through `Box`,
every other `TypeName` renders directly; `Seq`/`Map` interiors are never
hard. -/
def quote_type_spec (hard : Bool) (ks : List String) : Format → Option String
  | .TypeName x =>
      some (if hard && !ks.contains x then "Box<" ++ x ++ ">" else x)
  | .Unit => some "()"
  | .Bool => some "bool"
  | .I8 => some "i8"
  | .I16 => some "i16"
  | .I32 => some "i32"
  | .I64 => some "i64"
  | .I128 => some "i128"
  | .U8 => some "u8"
  | .U16 => some "u16"
  | .U32 => some "u32"
  | .U64 => some "u64"
  | .U128 => some "u128"
  | .F32 => some "f32"
  | .F64 => some "f64"
  | .Char => some "char"
  | .Str => some "String"
  | .Bytes => some "Bytes"
  | .Option f => (quote_type_spec hard ks f).map (fun s => "Option<" ++ s ++ ">")
  | .Seq f => (quote_type_spec false ks f).map (fun s => "Vec<" ++ s ++ ">")
  | .Map k v =>
      (quote_type_spec false ks k).bind (fun a =>
        (quote_type_spec false ks v).map
          (fun b => "Map<" ++ a ++ ", " ++ b ++ ">"))
  | .Tuple formats =>
      (quote_types_list_spec hard ks formats).map
        (fun l => "(" ++ String.intercalate ", " l ++ ")")
  | .TupleArray content size =>
      (quote_type_spec hard ks content).map
        (fun s => "[" ++ s ++ "; " ++ toString size ++ "]")
  | .Variable => none

/-- Spec-side counterpart of `quote_types_list`. -/
def quote_types_list_spec (hard : Bool) (ks : List String) :
    List Format → Option (List String)
  | [] => some []
  | f :: rest =>
      match quote_type_spec hard ks f, quote_types_list_spec hard ks rest with
      | some s, some l => some (s :: l)
      | _, _ => none
end

mutual
/-- `quote_type` refines the spec's indirection policy: passing
`Some(known_sizes)` is the hard-position mode, passing `None` is the
soft (inside `Seq`/`Map`) mode. -/
theorem quote_type_eq_spec : ∀ (f : Format) (hard : Bool) (ks : List String),
    quote_type f (cond hard (some ks) none) = quote_type_spec hard ks f
  | .TypeName x, hard, ks => by
      cases hard <;> (simp [quote_type, quote_type_spec]; try (split <;> simp))
  | .Unit, hard, ks => by cases hard <;> rfl
  | .Bool, hard, ks => by cases hard <;> rfl
  | .I8, hard, ks => by cases hard <;> rfl
  | .I16, hard, ks => by cases hard <;> rfl
  | .I32, hard, ks => by cases hard <;> rfl
  | .I64, hard, ks => by cases hard <;> rfl
  | .I128, hard, ks => by cases hard <;> rfl
  | .U8, hard, ks => by cases hard <;> rfl
  | .U16, hard, ks => by cases hard <;> rfl
  | .U32, hard, ks => by cases hard <;> rfl
  | .U64, hard, ks => by cases hard <;> rfl
  | .U128, hard, ks => by cases hard <;> rfl
  | .F32, hard, ks => by cases hard <;> rfl
  | .F64, hard, ks => by cases hard <;> rfl
  | .Char, hard, ks => by cases hard <;> rfl
  | .Str, hard, ks => by cases hard <;> rfl
  | .Bytes, hard, ks => by cases hard <;> rfl
  | .Option f, hard, ks => by
      have h := quote_type_eq_spec f hard ks
      cases hard <;> simp_all [quote_type, quote_type_spec]
  | .Seq f, hard, ks => by
      have h := quote_type_eq_spec f false ks
      cases hard <;> simp_all [quote_type, quote_type_spec]
  | .Map k v, hard, ks => by
      have hk := quote_type_eq_spec k false ks
      have hv := quote_type_eq_spec v false ks
      cases hard <;> simp_all [quote_type, quote_type_spec]
  | .Tuple formats, hard, ks => by
      have h := quote_types_list_eq_spec formats hard ks
      cases hard <;> simp_all [quote_type, quote_type_spec]
  | .TupleArray content size, hard, ks => by
      have h := quote_type_eq_spec content hard ks
      cases hard <;> simp_all [quote_type, quote_type_spec]
  | .Variable, hard, ks => by cases hard <;> rfl

/-- List version of `quote_type_eq_spec`. -/
theorem quote_types_list_eq_spec :
    ∀ (formats : List Format) (hard : Bool) (ks : List String),
    quote_types_list formats (cond hard (some ks) none) =
      quote_types_list_spec hard ks formats
  | [], hard, ks => by cases hard <;> rfl
  | f :: rest, hard, ks => by
      have h1 := quote_type_eq_spec f hard ks
      have h2 := quote_types_list_eq_spec rest hard ks
      cases hard <;> simp_all [quote_types_list, quote_types_list_spec]
end

mutual
/-- `quote_type` panics exactly when the format contains `Variable`. -/
theorem quote_type_none_iff :
    ∀ (f : Format) (ks : Option (List String)),
    quote_type f ks = none ↔ f.hasVariable = true
  | .TypeName x, ks => by
      cases ks <;> simp [quote_type, Format.hasVariable]
      split <;> simp
  | .Unit, ks => by simp [quote_type, Format.hasVariable]
  | .Bool, ks => by simp [quote_type, Format.hasVariable]
  | .I8, ks => by simp [quote_type, Format.hasVariable]
  | .I16, ks => by simp [quote_type, Format.hasVariable]
  | .I32, ks => by simp [quote_type, Format.hasVariable]
  | .I64, ks => by simp [quote_type, Format.hasVariable]
  | .I128, ks => by simp [quote_type, Format.hasVariable]
  | .U8, ks => by simp [quote_type, Format.hasVariable]
  | .U16, ks => by simp [quote_type, Format.hasVariable]
  | .U32, ks => by simp [quote_type, Format.hasVariable]
  | .U64, ks => by simp [quote_type, Format.hasVariable]
  | .U128, ks => by simp [quote_type, Format.hasVariable]
  | .F32, ks => by simp [quote_type, Format.hasVariable]
  | .F64, ks => by simp [quote_type, Format.hasVariable]
  | .Char, ks => by simp [quote_type, Format.hasVariable]
  | .Str, ks => by simp [quote_type, Format.hasVariable]
  | .Bytes, ks => by simp [quote_type, Format.hasVariable]
  | .Option f, ks => by
      have h := quote_type_none_iff f ks
      simp_all [quote_type, Format.hasVariable]
  | .Seq f, ks => by
      have h := quote_type_none_iff f none
      simp_all [quote_type, Format.hasVariable]
  | .Map k v, ks => by
      have hk := quote_type_none_iff k none
      have hv := quote_type_none_iff v none
      simp [quote_type, Format.hasVariable]
      cases hq : quote_type k none <;> cases hr : quote_type v none <;>
        simp_all
  | .Tuple formats, ks => by
      have h := quote_types_list_none_iff formats ks
      simp_all [quote_type, Format.hasVariable]
  | .TupleArray content size, ks => by
      have h := quote_type_none_iff content ks
      simp_all [quote_type, Format.hasVariable]
  | .Variable, ks => by simp [quote_type, Format.hasVariable]

/-- List version of `quote_type_none_iff`. -/
theorem quote_types_list_none_iff :
    ∀ (formats : List Format) (ks : Option (List String)),
    quote_types_list formats ks = none ↔ formatsHaveVariable formats = true
  | [], ks => by simp [quote_types_list, formatsHaveVariable]
  | f :: rest, ks => by
      have h1 := quote_type_none_iff f ks
      have h2 := quote_types_list_none_iff rest ks
      simp [quote_types_list, formatsHaveVariable]
      cases hq : quote_type f ks <;> cases hr : quote_types_list rest ks <;>
        simp_all
end

/-- Claim C1: for every `TypeName(x)` rendered in a hard-dependency position
(direct struct/newtype/tuple-struct field, tuple element, optional payload,
fixed-array element — i.e. with the known set passed as `Some`), the emitted
text is `Box<x>` when `x` is not in the known set and exactly `x` when it
is: `quote_type` under `Some(known_sizes)` agrees with the spec's
hard-position policy, `quote_type` under `None` with the soft policy, and
the policy at a hard `TypeName` is precisely the known-set test. -/
theorem C1_hard_position_box :
    (∀ (f : Format) (ks : List String),
        quote_type f (some ks) = quote_type_spec true ks f)
    ∧ (∀ (f : Format) (ks : List String),
        quote_type f none = quote_type_spec false ks f)
    ∧ (∀ (ks : List String) (x : String),
        quote_type_spec true ks (.TypeName x) =
          some (if ks.contains x then x else "Box<" ++ x ++ ">")) := by
  refine ⟨fun f ks => quote_type_eq_spec f true ks,
    fun f ks => quote_type_eq_spec f false ks, fun ks x => ?_⟩
  simp only [quote_type_spec, Bool.true_and]
  cases hks : ks.contains x <;> simp

/-- Claim C2: a `TypeName` strictly inside a `Seq` element or a `Map`
key/value is rendered directly by name regardless of the known set: the
`Seq`/`Map` cases of `quote_type` recurse with `None`, under which a
`TypeName` renders as the bare name; in particular
`Node { children: Seq(TypeName("Node")) }` renders `children` as
`Vec<Node>` with no `Box`, and (rendering being a total function of the
format) rendering terminates. -/
theorem C2_seq_map_direct :
    (∀ (f : Format) (ks : Option (List String)),
        quote_type (.Seq f) ks =
          (quote_type f none).map (fun s => "Vec<" ++ s ++ ">"))
    ∧ (∀ (k v : Format) (ks : Option (List String)),
        quote_type (.Map k v) ks =
          (quote_type k none).bind (fun a =>
            (quote_type v none).map
              (fun b => "Map<" ++ a ++ ", " ++ b ++ ">")))
    ∧ (∀ x : String, quote_type (.TypeName x) none = some x)
    ∧ output_container "" [] false true "Node"
        (.Struct [⟨"children", .Seq (.TypeName "Node")⟩]) [] =
        ("pub struct Node \x7b\n     pub children: Vec<Node>,\n\x7d\n\n",
          true) := by
  refine ⟨fun f ks => ?_, fun k v ks => ?_, fun x => rfl, by rfl⟩
  · cases ks <;> rfl
  · cases ks <;> rfl

/-- Claim C9: a `Variable` placeholder reached during emission is a fatal
error and never produces text: `quote_type` fails exactly on formats
containing `Variable` (in any position, under either mode), and
`output_variant` on a `Variable` variant fails leaving the output
untouched. -/
theorem C9_variable_fatal :
    (∀ (f : Format) (ks : Option (List String)),
        quote_type f ks = none ↔ f.hasVariable = true)
    ∧ (∀ (acc : String) (comments : DocComments) (base name : String)
        (ks : List String),
        output_variant acc comments base name .Variable ks = (acc, false)) :=
  ⟨fun f ks => quote_type_none_iff f ks, fun _ _ _ _ _ => rfl⟩

/-- Concatenation of a list of output chunks. -/
def concatAll : List String → String
  | [] => ""
  | s :: rest => s ++ concatAll rest

theorem output_comment_acc (acc : String) (comments : DocComments)
    (indentation : Nat) (qualified_name : List String) :
    output_comment acc comments indentation qualified_name =
      acc ++ output_comment "" comments indentation qualified_name := by
  unfold output_comment
  cases docLookup comments qualified_name <;>
    simp [String.append_assoc, String.empty_append, String.append_empty]

theorem output_fields_acc (comments : DocComments) (indentation : Nat)
    (base : List String) (is_pub : Bool) (known_sizes : List String) :
    ∀ (fields : List (Named Format)) (acc : String),
    output_fields acc comments indentation base fields is_pub known_sizes =
      (acc ++ (output_fields "" comments indentation base fields is_pub
        known_sizes).1,
       (output_fields "" comments indentation base fields is_pub
        known_sizes).2)
  | [], acc => by simp [output_fields, String.append_empty]
  | field :: rest, acc => by
      rw [output_fields]
      conv_rhs => rw [output_fields]
      rw [output_comment_acc]
      cases hq : quote_type field.value (some known_sizes) with
      | none => simp [String.append_assoc]
      | some ty =>
          simp only
          rw [output_fields_acc comments indentation base is_pub known_sizes
            rest]
          conv_rhs => rw [output_fields_acc comments indentation base is_pub
            known_sizes rest]
          simp [String.append_assoc, String.empty_append]

/-- Success of `output_fields` plus the shape of its output: one chunk per
field, in field order, each chunk opening with that field's doc comment. -/
def field_chunk (comments : DocComments) (indentation : Nat)
    (base : List String) (is_pub : Bool) (known_sizes : List String)
    (field : Named Format) : String :=
  output_comment "" comments 4 (base ++ [field.name]) ++
    (spaces indentation ++ (if is_pub then " pub " else "")) ++
    field.name ++ ": " ++
    (quote_type field.value (some known_sizes)).getD "" ++ ",\n"

theorem output_fields_join (comments : DocComments) (indentation : Nat)
    (base : List String) (is_pub : Bool) (known_sizes : List String) :
    ∀ (fields : List (Named Format)) (acc : String),
    (∀ f ∈ fields, f.value.hasVariable = false) →
    output_fields acc comments indentation base fields is_pub known_sizes =
      (acc ++ concatAll (fields.map
        (field_chunk comments indentation base is_pub known_sizes)), true)
  | [], acc, _ => by simp [output_fields, concatAll, String.append_empty]
  | field :: rest, acc, h => by
      have hf : field.value.hasVariable = false := h field (by simp)
      rw [output_fields]
      cases hq : quote_type field.value (some known_sizes) with
      | none =>
          rw [quote_type_none_iff] at hq
          rw [hq] at hf
          exact absurd hf (by simp)
      | some ty =>
          simp only
          rw [output_fields_join comments indentation base is_pub known_sizes
            rest _ (fun f hfm => h f (by simp [hfm]))]
          rw [output_comment_acc]
          simp [concatAll, field_chunk, hq, String.append_assoc]

theorem output_variant_acc (acc : String) (comments : DocComments)
    (base name : String) (variant : VariantFormat)
    (known_sizes : List String) :
    output_variant acc comments base name variant known_sizes =
      (acc ++ (output_variant "" comments base name variant known_sizes).1,
       (output_variant "" comments base name variant known_sizes).2) := by
  cases variant with
  | Unit => simp [output_variant, String.append_assoc, String.empty_append]
  | NewType f =>
      simp only [output_variant]
      cases quote_type f (some known_sizes) <;>
        simp [String.append_assoc, String.empty_append, String.append_empty]
  | Tuple formats =>
      simp only [output_variant]
      cases quote_types formats (some known_sizes) <;>
        simp [String.append_assoc, String.empty_append, String.append_empty]
  | Struct fields =>
      simp only [output_variant]
      rw [output_fields_acc]
      conv_rhs => rw [output_fields_acc comments 8 [base, name] false
        known_sizes fields]
      cases (output_fields "" comments 8 [base, name] fields false
        known_sizes).2 <;>
        simp [String.append_assoc, String.empty_append]
  | Variable => simp [output_variant, String.append_empty]

/-- Whether one variant renders without panicking (no `Variable` anywhere in
its payload). -/
def variantOk : VariantFormat → Bool
  | .Unit => true
  | .NewType f => !f.hasVariable
  | .Tuple formats => !formatsHaveVariable formats
  | .Struct fields => fields.all (fun f => !f.value.hasVariable)
  | .Variable => false

theorem output_variant_ok (acc : String) (comments : DocComments)
    (base name : String) (variant : VariantFormat)
    (known_sizes : List String) (h : variantOk variant = true) :
    (output_variant acc comments base name variant known_sizes).2 = true := by
  cases variant with
  | Unit => rfl
  | NewType f =>
      simp only [variantOk, Bool.not_eq_true'] at h
      simp only [output_variant]
      cases hq : quote_type f (some known_sizes) with
      | none => rw [quote_type_none_iff] at hq; rw [hq] at h; cases h
      | some ty => rfl
  | Tuple formats =>
      simp only [variantOk, Bool.not_eq_true'] at h
      simp only [output_variant]
      cases hq : quote_types formats (some known_sizes) with
      | none =>
          unfold quote_types at hq
          cases hql : quote_types_list formats (some known_sizes) with
          | none =>
              rw [quote_types_list_none_iff] at hql
              rw [hql] at h; cases h
          | some l => rw [hql] at hq; cases hq
      | some tys => rfl
  | Struct fields =>
      simp only [variantOk, List.all_eq_true, Bool.not_eq_true'] at h
      simp only [output_variant]
      rw [output_fields_join comments 8 [base, name] false known_sizes
        fields _ h]
      simp
  | Variable => simp [variantOk] at h

theorem output_variants_from_acc (comments : DocComments) (base : String)
    (known_sizes : List String) :
    ∀ (variants : List (Nat × Named VariantFormat)) (expected : Nat)
      (acc : String),
    output_variants_from acc comments base variants expected known_sizes =
      (acc ++ (output_variants_from "" comments base variants expected
        known_sizes).1,
       (output_variants_from "" comments base variants expected
        known_sizes).2)
  | [], expected, acc => by
      simp [output_variants_from, String.append_empty]
  | (index, variant) :: rest, expected, acc => by
      rw [output_variants_from]
      conv_rhs => rw [output_variants_from]
      by_cases hidx : index = expected
      · simp only [hidx, if_pos rfl]
        rw [output_comment_acc, output_variant_acc,
          output_variant_acc (output_comment "" comments 4 [base, variant.name])]
        cases hv : (output_variant "" comments base variant.name variant.value
          known_sizes).2 with
        | false => simp [String.append_assoc, String.empty_append]
        | true =>
            simp only [if_pos rfl]
            rw [output_variants_from_acc comments base known_sizes rest]
            conv_rhs => rw [output_variants_from_acc comments base known_sizes
              rest]
            simp [String.append_assoc, String.empty_append]
      · simp [hidx, String.append_empty]

/-- One rendered chunk of `output_variants`: the variant's doc comment
followed by the variant's own text. -/
def variant_chunk (comments : DocComments) (base : String)
    (known_sizes : List String) (kv : Nat × Named VariantFormat) : String :=
  output_comment "" comments 4 [base, kv.2.name] ++
    (output_variant "" comments base kv.2.name kv.2.value known_sizes).1

theorem output_variants_from_join (comments : DocComments) (base : String)
    (known_sizes : List String) :
    ∀ (variants : List (Nat × Named VariantFormat)) (expected : Nat)
      (acc : String),
    variants.map Prod.fst = List.range' expected variants.length →
    (∀ kv ∈ variants, variantOk kv.2.value = true) →
    output_variants_from acc comments base variants expected known_sizes =
      (acc ++ concatAll (variants.map
        (variant_chunk comments base known_sizes)), true)
  | [], expected, acc, _, _ => by
      simp [output_variants_from, concatAll, String.append_empty]
  | (index, variant) :: rest, expected, acc, hrange, hok => by
      have hidx : index = expected := by
        simp [List.range'] at hrange
        exact hrange.1
      have hrest : rest.map Prod.fst = List.range' (expected + 1)
          rest.length := by
        simp [List.range'] at hrange
        exact hrange.2
      rw [output_variants_from]
      simp only [hidx, if_pos rfl]
      rw [output_comment_acc, output_variant_acc]
      rw [output_variant_ok "" comments base variant.name variant.value
        known_sizes (hok (index, variant) (by simp))]
      simp only [if_pos rfl]
      rw [output_variants_from_join comments base known_sizes rest
        (expected + 1) _ hrest (fun kv hkv => hok kv (by simp [hkv]))]
      simp [concatAll, variant_chunk, String.append_assoc,
        String.empty_append]

theorem output_variants_acc (acc : String) (comments : DocComments)
    (base : String) (variants : List (Nat × Named VariantFormat))
    (known_sizes : List String) :
    output_variants acc comments base variants known_sizes =
      (acc ++ (output_variants "" comments base variants known_sizes).1,
       (output_variants "" comments base variants known_sizes).2) :=
  output_variants_from_acc comments base known_sizes variants 0 acc

/-- Whether a container renders without panicking: no `Variable` anywhere,
and for an `Enum` the variant indices are exactly `0..N-1`. -/
def containerOk : ContainerFormat → Bool
  | .UnitStruct => true
  | .NewTypeStruct f => !f.hasVariable
  | .TupleStruct formats => !formatsHaveVariable formats
  | .Struct fields => fields.all (fun f => !f.value.hasVariable)
  | .Enum variants =>
      decide (variants.map Prod.fst = List.range variants.length) &&
        variants.all (fun kv => variantOk kv.2.value)

theorem output_container_acc (acc : String) (comments : DocComments)
    (with_derive_macros track_visibility : Bool) (name : String)
    (format : ContainerFormat) (known_sizes : List String) :
    output_container acc comments with_derive_macros track_visibility name
        format known_sizes =
      (acc ++ (output_container "" comments with_derive_macros
        track_visibility name format known_sizes).1,
       (output_container "" comments with_derive_macros track_visibility name
        format known_sizes).2) := by
  cases format with
  | UnitStruct =>
      simp only [output_container]
      rw [output_comment_acc]
      simp [String.append_assoc, String.empty_append]
  | NewTypeStruct f =>
      simp only [output_container]
      rw [output_comment_acc]
      cases quote_type f (some known_sizes) <;>
        simp [String.append_assoc, String.empty_append, String.append_empty]
  | TupleStruct formats =>
      simp only [output_container]
      rw [output_comment_acc]
      cases quote_types formats (some known_sizes) <;>
        simp [String.append_assoc, String.empty_append, String.append_empty]
  | Struct fields =>
      simp only [output_container]
      rw [output_comment_acc, output_fields_acc]
      conv_rhs => rw [output_fields_acc]
      cases (output_fields "" comments 4 [name] fields track_visibility
        known_sizes).2 <;>
        simp [String.append_assoc, String.empty_append]
  | Enum variants =>
      simp only [output_container]
      rw [output_comment_acc, output_variants_acc]
      conv_rhs => rw [output_variants_acc]
      cases (output_variants "" comments name variants known_sizes).2 <;>
        simp [String.append_assoc, String.empty_append]

theorem output_container_ok (acc : String) (comments : DocComments)
    (with_derive_macros track_visibility : Bool) (name : String)
    (format : ContainerFormat) (known_sizes : List String)
    (h : containerOk format = true) :
    (output_container acc comments with_derive_macros track_visibility name
      format known_sizes).2 = true := by
  cases format with
  | UnitStruct => rfl
  | NewTypeStruct f =>
      simp only [containerOk, Bool.not_eq_true'] at h
      simp only [output_container]
      cases hq : quote_type f (some known_sizes) with
      | none => rw [quote_type_none_iff] at hq; rw [hq] at h; cases h
      | some ty => rfl
  | TupleStruct formats =>
      simp only [containerOk, Bool.not_eq_true'] at h
      simp only [output_container]
      cases hql : quote_types_list formats (some known_sizes) with
      | none =>
          rw [quote_types_list_none_iff] at hql
          rw [hql] at h; cases h
      | some l => simp [quote_types, hql]
  | Struct fields =>
      simp only [containerOk, List.all_eq_true, Bool.not_eq_true'] at h
      simp only [output_container]
      rw [output_fields_join comments 4 [name] track_visibility known_sizes
        fields _ h]
      simp
  | Enum variants =>
      simp only [containerOk, Bool.and_eq_true, List.all_eq_true,
        decide_eq_true_eq] at h
      simp only [output_container, output_variants]
      rw [output_variants_from_join comments name known_sizes variants 0 _
        (by rw [← List.range_eq_range']; exact h.1) h.2]
      simp

theorem output_variants_from_fail (comments : DocComments) (base : String)
    (known_sizes : List String) :
    ∀ (variants : List (Nat × Named VariantFormat)) (expected : Nat)
      (acc : String),
    variants.map Prod.fst ≠ List.range' expected variants.length →
    (output_variants_from acc comments base variants expected
      known_sizes).2 = false
  | [], expected, acc, h => absurd rfl h
  | (index, variant) :: rest, expected, acc, h => by
      rw [output_variants_from]
      by_cases hidx : index = expected
      · have hrest : rest.map Prod.fst ≠ List.range' (expected + 1)
            rest.length := by
          intro hr
          exact h (by simp [List.range', hidx, hr])
        simp only [hidx, if_pos rfl]
        cases hv : (output_variant
            (output_comment acc comments 4 [base, variant.name]) comments base
            variant.name variant.value known_sizes).2 with
        | false => simp [hv]
        | true =>
            simp only [hv, if_pos rfl]
            exact output_variants_from_fail comments base known_sizes rest
              (expected + 1) _ hrest
      · simp [hidx]

/-- Claim C7: fields and variants are emitted in exactly the order given:
`output_fields` produces the in-order concatenation of one chunk per field,
`output_variants` the in-order concatenation of one chunk per variant (for
an enum with indices `0..N-1`), and `Enum{0:A, 1:B, 2:C}` lists `A`, `B`,
`C` in that order. -/
theorem C7_order_preserved :
    (∀ (comments : DocComments) (indentation : Nat) (base : List String)
        (is_pub : Bool) (known_sizes : List String)
        (fields : List (Named Format)) (acc : String),
      (∀ f ∈ fields, f.value.hasVariable = false) →
      output_fields acc comments indentation base fields is_pub known_sizes =
        (acc ++ concatAll (fields.map
          (field_chunk comments indentation base is_pub known_sizes)), true))
    ∧ (∀ (comments : DocComments) (base : String)
        (known_sizes : List String)
        (variants : List (Nat × Named VariantFormat)) (acc : String),
      variants.map Prod.fst = List.range variants.length →
      (∀ kv ∈ variants, variantOk kv.2.value = true) →
      output_variants acc comments base variants known_sizes =
        (acc ++ concatAll (variants.map
          (variant_chunk comments base known_sizes)), true))
    ∧ output_container "" [] false true "Color"
        (.Enum [(0, ⟨"A", .Unit⟩), (1, ⟨"B", .Unit⟩), (2, ⟨"C", .Unit⟩)]) [] =
        ("pub enum Color \x7b\n    A,\n    B,\n    C,\n\x7d\n\n", true) := by
  refine ⟨fun comments indentation base is_pub known_sizes fields acc h =>
      output_fields_join comments indentation base is_pub known_sizes fields
        acc h,
    fun comments base known_sizes variants acc hrange hok => ?_, by rfl⟩
  exact output_variants_from_join comments base known_sizes variants 0 acc
    (by rw [← List.range_eq_range']; exact hrange) hok

/-- Witness for C7 at a concrete struct: the two fields of `S` are emitted
in the given order with their rendered types. -/
theorem C7_witness :
    output_fields "" [] 4 ["S"] [⟨"a", .U64⟩, ⟨"b", .Str⟩] true [] =
      ("     pub a: u64,\n     pub b: String,\n", true) := by
  have h := C7_order_preserved.1 [] 4 ["S"] true []
    [⟨"a", .U64⟩, ⟨"b", .Str⟩] "" (by decide)
  simpa using h

/-- Claim C10: with the `BTreeMap` public interface (strictly increasing
keys, so duplicate indices are unrepresentable), the per-variant assertion
`index == expected_index` never fires exactly when the key sequence is
`0..N-1`, equivalently when the key set is `{0, ..., N-1}`; otherwise
emission stops at the first out-of-place key. -/
theorem C10_assertion_characterization :
    ∀ (acc : String) (comments : DocComments) (base : String)
      (known_sizes : List String)
      (variants : List (Nat × Named VariantFormat)),
    List.Chain' (fun a b => a < b) (variants.map Prod.fst) →
    (∀ kv ∈ variants, variantOk kv.2.value = true) →
    (((output_variants acc comments base variants known_sizes).2 = true) ↔
      variants.map Prod.fst = List.range variants.length)
    ∧ (variants.map Prod.fst = List.range variants.length ↔
      ∀ k, k ∈ variants.map Prod.fst ↔ k < variants.length) := by
  intro acc comments base known_sizes variants hchain hok
  constructor
  · constructor
    · intro hsucc
      by_contra hne
      have : (output_variants acc comments base variants known_sizes).2 =
          false := by
        apply output_variants_from_fail comments base known_sizes variants 0
        rw [← List.range_eq_range']
        exact hne
      rw [hsucc] at this
      cases this
    · intro hrange
      have h := output_variants_from_join comments base known_sizes variants
        0 acc (by rw [← List.range_eq_range']; exact hrange) hok
      simp only [output_variants, h]
  · constructor
    · intro hrange k
      rw [hrange]
      exact List.mem_range
    · intro hmem
      have hpair : (variants.map Prod.fst).Pairwise (fun a b => a < b) :=
        List.chain'_iff_pairwise.mp hchain
      have hlen : (variants.map Prod.fst).length = variants.length :=
        List.length_map _ _
      apply List.eq_of_perm_of_sorted
        ((List.perm_ext_iff_of_nodup hpair.nodup
          (List.nodup_range _)).mpr (fun a => by
            rw [List.mem_range]; exact hmem a))
        hpair
      exact List.pairwise_lt_range _

/-- Witness for C10 at the gapped enum `{0:A, 2:C}`: keys are strictly
increasing, no `Variable` occurs, emission fails, and indeed `[0, 2]` is not
`range 2`. -/
theorem C10_witness :
    ((output_variants "" [] "Test"
        [(0, ⟨"A", .Unit⟩), (2, ⟨"C", .Unit⟩)] []).2 = true ↔
      [0, 2] = List.range 2) ∧
    (output_variants "" [] "Test"
        [(0, ⟨"A", .Unit⟩), (2, ⟨"C", .Unit⟩)] []).2 = false := by
  have h := C10_assertion_characterization "" [] "Test" []
    [(0, ⟨"A", .Unit⟩), (2, ⟨"C", .Unit⟩)]
    (by simp [List.chain'_cons]) (by decide)
  exact ⟨by simpa using h.1, by rfl⟩

/-- Claim C4 counterexample: on the registry `{Test: Enum{0:A, 2:C}}` the
run does fail, but the text already written at the moment of failure is the
preamble, the enum header and variant `A` — not the empty string the claim
requires. -/
theorem C4_counterexample :
    (output false [("Test", .Enum [(0, ⟨"A", .Unit⟩),
        (2, ⟨"C", .Unit⟩)])]).2 = false
    ∧ (output false [("Test", .Enum [(0, ⟨"A", .Unit⟩),
        (2, ⟨"C", .Unit⟩)])]).1 =
      "#![allow(unused_imports)]\nuse std::collections::BTreeMap as Map;\n\ntype Bytes = Vec<u8>;\n\npub enum Test \x7b\n    A,\n"
    ∧ "#![allow(unused_imports)]\nuse std::collections::BTreeMap as Map;\n\ntype Bytes = Vec<u8>;\n\npub enum Test \x7b\n    A,\n" ≠ "" := by
  refine ⟨by rfl, by rfl, by decide⟩

/-- Claim C4 as amended: an `Enum` whose variant indices are not exactly
`0..N-1` makes generation fail (the container's emission aborts at the first
out-of-place index), but text written before that point — the preamble, the
containers already emitted, the enum header and the variants preceding the
first out-of-place index — has already been produced. -/
theorem C4_amended_enum_gap_fails :
    ∀ (acc : String) (comments : DocComments)
      (with_derive_macros track_visibility : Bool) (name : String)
      (variants : List (Nat × Named VariantFormat))
      (known_sizes : List String),
    variants.map Prod.fst ≠ List.range variants.length →
    (output_container acc comments with_derive_macros track_visibility name
      (.Enum variants) known_sizes).2 = false := by
  intro acc comments wdm tv name variants known_sizes hne
  simp only [output_container, output_variants]
  have hfail : ∀ a : String,
      (output_variants_from a comments name variants 0 known_sizes).2 =
        false := fun a =>
    output_variants_from_fail comments name known_sizes variants 0 a
      (by rw [← List.range_eq_range']; exact hne)
  simp [hfail]

/-- Witness for C4's amended claim at the gapped enum `{0:A, 2:C}`. -/
theorem C4_amended_witness :
    (output_container "" [] false true "Test"
      (.Enum [(0, ⟨"A", .Unit⟩), (2, ⟨"C", .Unit⟩)]) []).2 = false :=
  C4_amended_enum_gap_fails "" [] false true "Test"
    [(0, ⟨"A", .Unit⟩), (2, ⟨"C", .Unit⟩)] [] (by decide)

theorem emitLoop_append (registry : Registry) (comments : DocComments)
    (with_derive_macros : Bool) :
    ∀ (pre rest known : List String) (acc : String),
    emitLoop registry comments with_derive_macros (pre ++ rest) known acc =
      (let r := emitLoop registry comments with_derive_macros pre known acc
       if r.2 then
         emitLoop registry comments with_derive_macros rest (known ++ pre) r.1
       else r)
  | [], rest, known, acc => by simp [emitLoop]
  | name :: pre', rest, known, acc => by
      simp only [List.cons_append, emitLoop]
      cases registryGet registry name with
      | none => simp [emitLoop]
      | some format =>
          simp only
          cases h : (output_container acc comments with_derive_macros true
              name format known).2 with
          | false => simp [h]
          | true =>
              simp only [h, eq_self_iff_true, if_true, List.append_eq]
              rw [emitLoop_append registry comments with_derive_macros pre'
                rest (known ++ [name])]
              simp [List.append_assoc]

/-- Claim C5: the known-set invariant of the emission loop.  The run of
`output_with_external_dependencies_and_comments` starts the loop with the
known set containing exactly the externally-supplied names, and after any
prefix `pre` of the emission order has been fully emitted, the rest of the
loop runs with the known set extended by exactly the names of `pre` — i.e.
each name joins the set only after its container is fully emitted, and the
set passed into the rendering of any single container is a fixed value. -/
theorem C5_known_set_invariant :
    (∀ (registry : Registry) (comments : DocComments)
        (with_derive_macros : Bool) (pre rest known : List String)
        (acc : String),
      emitLoop registry comments with_derive_macros (pre ++ rest) known acc =
        (let r := emitLoop registry comments with_derive_macros pre known acc
         if r.2 then
           emitLoop registry comments with_derive_macros rest (known ++ pre)
             r.1
         else r))
    ∧ (∀ (with_derive_macros : Bool) (registry : Registry)
        (external_definitions : ExternalDefinitions)
        (comments : DocComments) (g : List (String × List String)),
      get_dependency_map_with_external_dependencies registry
        (external_names_of external_definitions) = .ok g →
      output_with_external_dependencies_and_comments with_derive_macros
        registry external_definitions comments =
        emitLoop registry comments with_derive_macros
          (best_effort_topological_sort g)
          (external_names_of external_definitions)
          (output_preamble with_derive_macros external_definitions)) := by
  refine ⟨fun registry comments wdm pre rest known acc =>
    emitLoop_append registry comments wdm pre rest known acc,
    fun wdm registry ext comments g h => ?_⟩
  simp only [output_with_external_dependencies_and_comments, h]

/-- Witness for C5: on the one-container registry `{Test}` with no external
definitions, the hypothesis (a successful analysis) holds and the run equals
the loop seeded with the (empty) external-name set. -/
theorem C5_witness :
    get_dependency_map_with_external_dependencies
        [("Test", ContainerFormat.UnitStruct)] (external_names_of []) =
      .ok [("Test", [])]
    ∧ output_with_external_dependencies_and_comments false
        [("Test", ContainerFormat.UnitStruct)] [] [] =
      emitLoop [("Test", ContainerFormat.UnitStruct)] [] false
        (best_effort_topological_sort [("Test", [])])
        (external_names_of []) (output_preamble false []) :=
  ⟨rfl, C5_known_set_invariant.2 false [("Test", ContainerFormat.UnitStruct)]
    [] [] [("Test", [])] rfl⟩

/-- The left-brace character, present in every generated import line. -/
def lbrace : Char := Char.ofNat 123

theorem lbrace_in_use_line (module : String) (definitions : List String) :
    lbrace ∈ (use_line module definitions).data := by
  have h : lbrace ∈ "::\x7b".data := by decide
  simp only [use_line, String.data_append, List.mem_append]
  tauto

theorem use_line_ne (module : String) (definitions : List String)
    (s : String) (hs : lbrace ∉ s.data) :
    use_line module definitions ≠ s := fun h =>
  hs (h ▸ lbrace_in_use_line module definitions)

theorem preamble_loop_lines :
    ∀ ext : ExternalDefinitions,
    ext.filterMap (fun p => if p.1 = "" then none
        else some (use_line p.1 p.2)) =
      (ext.filter (fun p => p.1 ≠ "")).map (fun p => use_line p.1 p.2)
  | [] => rfl
  | p :: rest => by
      by_cases hp : p.1 = "" <;>
        simp [List.filterMap_cons, List.filter_cons, hp,
          preamble_loop_lines rest]

/-- Claim C6 counterexample: with `with_derive_macros` set and
`external_definitions = \x7b"serde": ["Serialize", "Deserialize"]\x7d`, the
preamble contains the `use serde::...` statement twice (the built-in
serde use line plus the loop-generated one), not exactly once. -/
theorem C6_counterexample :
    (output_preamble_lines true
      [("serde", ["Serialize", "Deserialize"])]).count
        (use_line "serde" ["Serialize", "Deserialize"]) = 2 := by rfl

/-- Claim C6 as amended: with `{"": {"Bytes"}}` the preamble omits both the
`serde_bytes` import and the `type Bytes = Vec<u8>` alias and emits no use
statement for the empty module; and each non-empty module entry of
`external_definitions` gets its import line exactly once — except that when
`with_derive_macros` is set and the entry's rendered line coincides with the
built-in `use serde::\x7bSerialize, Deserialize\x7d;` import, that line
appears twice. -/
theorem C6_amended_preamble :
    (output_preamble_lines true [("", ["Bytes"])] =
      ["#![allow(unused_imports)]", "use std::collections::BTreeMap as Map;",
       "use serde::\x7bSerialize, Deserialize\x7d;", ""])
    ∧ (output_preamble_lines false [("", ["Bytes"])] =
      ["#![allow(unused_imports)]", "use std::collections::BTreeMap as Map;",
       ""])
    ∧ (∀ (with_derive_macros : Bool) (ext : ExternalDefinitions)
        (m : String) (defs : List String),
      (m, defs) ∈ ext → m ≠ "" →
      ((ext.filter (fun p => p.1 ≠ "")).map
        (fun p => use_line p.1 p.2)).Nodup →
      (output_preamble_lines with_derive_macros ext).count
          (use_line m defs) =
        if with_derive_macros = true ∧ use_line m defs =
            use_line "serde" ["Serialize", "Deserialize"] then 2 else 1) := by
  refine ⟨by rfl, by rfl, fun wdm ext m defs hmem hm hnodup => ?_⟩
  have hloopmem : use_line m defs ∈
      (ext.filter (fun p => p.1 ≠ "")).map (fun p => use_line p.1 p.2) :=
    List.mem_map.mpr ⟨(m, defs), List.mem_filter.mpr ⟨hmem, by simp [hm]⟩,
      rfl⟩
  have hloop := List.count_eq_one_of_mem hnodup hloopmem
  have h1 := use_line_ne m defs "#![allow(unused_imports)]" (by decide)
  have h2 := use_line_ne m defs "use std::collections::BTreeMap as Map;"
    (by decide)
  have h3 := use_line_ne m defs "use serde_bytes::ByteBuf as Bytes;"
    (by decide)
  have h4 := use_line_ne m defs "" (by decide)
  have h5 := use_line_ne m defs "type Bytes = Vec<u8>;" (by decide)
  have hlit : use_line "serde" ["Serialize", "Deserialize"] =
      "use serde::\x7bSerialize, Deserialize\x7d;" := by decide
  simp only [output_preamble_lines, preamble_loop_lines, List.count_append]
  have e1 : List.count (use_line m defs) ["#![allow(unused_imports)]"] = 0 := by
    rw [List.count_singleton', if_neg (Ne.symm h1)]
  have e2 : ∀ c : Bool, List.count (use_line m defs)
      (if c = true then []
       else ["use std::collections::BTreeMap as Map;"]) = 0 := by
    intro c
    cases c
    · simp only [Bool.false_eq_true, if_false]
      rw [List.count_singleton', if_neg (Ne.symm h2)]
    · simp [List.count_nil]
  have e4 : ∀ c : Bool, List.count (use_line m defs)
      (if c = true then ["use serde_bytes::ByteBuf as Bytes;"] else []) =
        0 := by
    intro c
    cases c
    · simp [List.count_nil]
    · simp only [if_true]
      rw [List.count_singleton', if_neg (Ne.symm h3)]
  have e6 : List.count (use_line m defs) [""] = 0 := by
    rw [List.count_singleton', if_neg (Ne.symm h4)]
  have e7 : ∀ c : Bool, List.count (use_line m defs)
      (if c = true then ["type Bytes = Vec<u8>;", ""] else []) = 0 := by
    intro c
    cases c
    · simp [List.count_nil]
    · simp only [if_true]
      simp [List.count_cons, List.count_nil, Ne.symm h4, Ne.symm h5]
  by_cases hser : use_line m defs =
      use_line "serde" ["Serialize", "Deserialize"]
  · have hser' := hser.trans hlit
    have e3 : ∀ c : Bool, List.count (use_line m defs)
        (if c = true then ["use serde::\x7bSerialize, Deserialize\x7d;"]
         else []) = if c = true then 1 else 0 := by
      intro c
      cases c
      · simp [List.count_nil]
      · simp only [if_true]
        rw [List.count_singleton', if_pos (Eq.symm hser')]
    rw [e1, e2, e3, e4, e6, e7, hloop]
    cases wdm <;> simp [hser]
  · have hser' : use_line m defs ≠
        "use serde::\x7bSerialize, Deserialize\x7d;" := by
      rw [← hlit]; exact hser
    have e3 : ∀ c : Bool, List.count (use_line m defs)
        (if c = true then ["use serde::\x7bSerialize, Deserialize\x7d;"]
         else []) = 0 := by
      intro c
      cases c
      · simp [List.count_nil]
      · simp only [if_true]
        rw [List.count_singleton', if_neg (Ne.symm hser')]
    rw [e1, e2, e3, e4, e6, e7, hloop]
    simp [hser]

/-- Witness for C6 at a concrete input with hypotheses discharged: the
module `other` gets its import line exactly once. -/
theorem C6_witness :
    (output_preamble_lines false [("other", ["X", "Y"])]).count
      (use_line "other" ["X", "Y"]) = 1 := by
  have h := C6_amended_preamble.2.2 false [("other", ["X", "Y"])] "other"
    ["X", "Y"] (by simp) (by decide) (by simp)
  simpa using h

theorem eraseN_perm :
    ∀ (l : List (String × List String)) (a : String × List String),
    a ∈ l → List.Perm l (a :: eraseN l a)
  | x :: xs, a, h => by
      by_cases hx : x = a
      · subst hx
        simp [eraseN]
      · have ha : a ∈ xs := by
          cases h with
          | head => exact absurd rfl hx
          | tail _ h => exact h
        have IH := eraseN_perm xs a ha
        simp only [eraseN, if_neg hx]
        exact (IH.cons x).trans (List.Perm.swap a x _)

theorem length_eraseN :
    ∀ (l : List (String × List String)) (a : String × List String),
    a ∈ l → (eraseN l a).length = l.length - 1
  | x :: xs, a, h => by
      by_cases hx : x = a
      · simp [eraseN, hx]
      · have ha : a ∈ xs := by
          cases h with
          | head => exact absurd rfl hx
          | tail _ h => exact h
        have hlen : xs.length ≥ 1 := by
          cases xs with
          | nil => cases ha
          | cons y ys => simp
        simp only [eraseN, if_neg hx, List.length_cons,
          length_eraseN xs a ha]
        omega

theorem mem_eraseN_of_ne
    (b a : String × List String) (hba : b ≠ a) :
    ∀ (l : List (String × List String)), (b ∈ eraseN l a ↔ b ∈ l)
  | [] => by simp [eraseN]
  | x :: xs => by
      by_cases hx : x = a
      · subst hx
        simp only [eraseN, if_pos rfl, List.mem_cons]
        constructor
        · exact fun h => Or.inr h
        · rintro (h | h)
          · exact absurd h hba
          · exact h
      · simp only [eraseN, if_neg hx, List.mem_cons,
          mem_eraseN_of_ne b a hba xs]

theorem eraseN_comm (a b : String × List String) :
    ∀ l : List (String × List String),
    eraseN (eraseN l a) b = eraseN (eraseN l b) a
  | [] => rfl
  | x :: xs => by
      by_cases hxa : x = a <;> by_cases hxb : x = b
      · subst hxa; subst hxb; rfl
      · subst hxa
        simp [eraseN, if_pos rfl, if_neg hxb]
      · subst hxb
        simp [eraseN, if_pos rfl, if_neg hxa]
      · simp only [eraseN, if_neg hxa, if_neg hxb]
        rw [eraseN_comm a b xs]

theorem sublist_eraseN (a : String × List String) :
    ∀ l : List (String × List String), List.Sublist (eraseN l a) l
  | [] => List.Sublist.refl []
  | x :: xs => by
      by_cases hx : x = a
      · simp only [eraseN, if_pos hx]
        exact List.sublist_cons_self x xs
      · simp only [eraseN, if_neg hx]
        exact (sublist_eraseN a xs).cons₂ x

/-- A topological elimination order: `Extends em rem ord` states that the
nodes of `rem` can be eliminated in the order `ord`, each node having all
its dependencies among the already-emitted names `em` at its turn. -/
def Extends : List String → List (String × List String) → List String → Prop
  | _, rem, [] => rem = []
  | em, rem, x :: xs =>
      ∃ p, p ∈ rem ∧ p.1 = x ∧ (∀ d ∈ p.2, d ∈ em) ∧
        Extends (x :: em) (eraseN rem p) xs

/-- Acyclicity of the hard-dependency graph: a complete topological
elimination order exists. -/
def HardDepAcyclic (graph : List (String × List String)) : Prop :=
  ∃ ord, Extends [] graph ord

/-- `ord` is a valid topological order for `graph`: it lists exactly the
graph's nodes, and every node appears strictly after each of its
dependencies. -/
def IsTopoOrder (graph : List (String × List String))
    (ord : List String) : Prop :=
  List.Perm ord (graph.map Prod.fst) ∧
    ∀ p ∈ graph, ∀ d ∈ p.2, ord.indexOf d < ord.indexOf p.1

theorem extends_mono :
    ∀ (ord : List String) (em em' : List String)
      (rem : List (String × List String)),
    Extends em rem ord → (∀ a ∈ em, a ∈ em') → Extends em' rem ord
  | [], _, _, _, h, _ => h
  | x :: xs, em, em', rem, h, hsub => by
      obtain ⟨p, hp, hpx, hpd, hrec⟩ := h
      exact ⟨p, hp, hpx, fun d hd => hsub d (hpd d hd),
        extends_mono xs (x :: em) (x :: em') (eraseN rem p) hrec
          (fun a ha => by
            cases ha with
            | head => exact List.mem_cons_self x em'
            | tail _ ha => exact List.mem_cons_of_mem x (hsub a ha))⟩

theorem extends_perm :
    ∀ (ord : List String) (em : List String)
      (rem : List (String × List String)),
    Extends em rem ord → List.Perm ord (rem.map Prod.fst)
  | [], _, rem, h => by rw [h]; simp
  | x :: xs, em, rem, h => by
      obtain ⟨p, hp, hpx, _, hrec⟩ := h
      have h1 := extends_perm xs (x :: em) (eraseN rem p) hrec
      have h2 := (eraseN_perm rem p hp).map Prod.fst
      have h3 : List.Perm (List.map Prod.fst rem)
          (x :: List.map Prod.fst (eraseN rem p)) := by
        simpa [hpx] using h2
      exact (h1.cons x).trans h3.symm

theorem extends_remove :
    ∀ (ord : List String) (em : List String)
      (rem : List (String × List String)) (p : String × List String),
    Extends em rem ord → p ∈ rem → (∀ d ∈ p.2, d ∈ em) →
    ∃ ord', Extends (p.1 :: em) (eraseN rem p) ord'
  | [], em, rem, p, h, hp, _ => by rw [h] at hp; cases hp
  | x :: xs, em, rem, p, h, hp, hpd => by
      obtain ⟨q, hq, hqx, hqd, hrec⟩ := h
      by_cases hpq : p = q
      · subst hpq
        exact ⟨xs, by rw [hqx]; exact hrec⟩
      · have hp' : p ∈ eraseN rem q := (mem_eraseN_of_ne p q hpq _).mpr hp
        obtain ⟨ord'', h''⟩ := extends_remove xs (x :: em) (eraseN rem q) p
          hrec hp' (fun d hd => List.mem_cons_of_mem x (hpd d hd))
        refine ⟨x :: ord'', q,
          (mem_eraseN_of_ne q p (Ne.symm hpq) _).mpr hq, hqx,
          fun d hd => List.mem_cons_of_mem _ (hqd d hd), ?_⟩
        rw [eraseN_comm]
        exact extends_mono ord'' (p.1 :: x :: em) (x :: p.1 :: em) _ h''
          (fun a ha => by simp at ha ⊢; tauto)

theorem depsSat_iff (emitted deps : List String) :
    depsSat emitted deps = true ↔ ∀ d ∈ deps, d ∈ emitted := by
  simp only [depsSat, List.all_eq_true]
  constructor
  · exact fun h d hd => List.mem_of_elem_eq_true (h d hd)
  · exact fun h d hd => List.elem_eq_true_of_mem (h d hd)

theorem kahnLoop_perm :
    ∀ (fuel : Nat) (rem : List (String × List String)) (em : List String),
    List.Perm (kahnLoop fuel rem em) (em ++ rem.map Prod.fst)
  | 0, rem, em => by simp [kahnLoop]
  | fuel + 1, rem, em => by
      rw [kahnLoop]
      cases hfind : rem.find? (fun p => depsSat em p.2) with
      | none => simp
      | some p =>
          have hp : p ∈ rem := List.mem_of_find?_eq_some hfind
          have IH := kahnLoop_perm fuel (eraseN rem p) (em ++ [p.1])
          refine IH.trans ?_
          have h2 : List.Perm (rem.map Prod.fst)
              (p.1 :: (eraseN rem p).map Prod.fst) := by
            simpa using (eraseN_perm rem p hp).map Prod.fst
          have h3 : List.Perm ((em ++ [p.1]) ++ (eraseN rem p).map Prod.fst)
              (em ++ (p.1 :: (eraseN rem p).map Prod.fst)) := by
            simp [List.append_assoc]
          exact h3.trans (h2.symm.append_left em)

theorem kahn_main :
    ∀ (fuel : Nat) (rem : List (String × List String)) (em : List String),
    rem.length ≤ fuel → (∃ ord, Extends em rem ord) →
    ∃ tail, kahnLoop fuel rem em = em ++ tail ∧ Extends em rem tail
  | 0, rem, em, hlen, _ => by
      have : rem = [] := List.length_eq_zero.mp (Nat.le_zero.mp hlen)
      subst this
      exact ⟨[], by simp [kahnLoop], rfl⟩
  | fuel + 1, rem, em, hlen, ⟨ord, hord⟩ => by
      cases hfind : rem.find? (fun p => depsSat em p.2) with
      | none =>
          rw [kahnLoop]
          simp only [hfind]
          cases hrem : rem with
          | nil =>
              subst hrem
              exact ⟨[], by simp, rfl⟩
          | cons r rem' =>
              exfalso
              subst hrem
              cases hord' : ord with
              | nil => rw [hord'] at hord; cases hord
              | cons x xs =>
                  rw [hord'] at hord
                  obtain ⟨q, hq, _, hqd, _⟩ := hord
                  have hsat : depsSat em q.2 = true :=
                    (depsSat_iff em q.2).mpr hqd
                  have := List.find?_eq_none.mp hfind q hq
                  rw [hsat] at this
                  exact this rfl
      | some p =>
          rw [kahnLoop]
          simp only [hfind]
          have hp : p ∈ rem := List.mem_of_find?_eq_some hfind
          have hsat : depsSat em p.2 = true := by
            have := List.find?_some hfind
            simpa using this
          have hpd : ∀ d ∈ p.2, d ∈ em := (depsSat_iff em p.2).mp hsat
          obtain ⟨ord', h'⟩ := extends_remove ord em rem p hord hp hpd
          have h'' : Extends (em ++ [p.1]) (eraseN rem p) ord' :=
            extends_mono ord' (p.1 :: em) (em ++ [p.1]) _ h'
              (fun a ha => by simp at ha ⊢; tauto)
          have hlen' : (eraseN rem p).length ≤ fuel := by
            rw [length_eraseN rem p hp]
            have : rem.length ≥ 1 := by
              cases rem with
              | nil => cases hp
              | cons r rem' => simp
            omega
          obtain ⟨tail', heq, hext⟩ := kahn_main fuel (eraseN rem p)
            (em ++ [p.1]) hlen' ⟨ord', h''⟩
          refine ⟨p.1 :: tail', by rw [heq]; simp, ?_⟩
          exact ⟨p, hp, rfl, hpd,
            extends_mono tail' (em ++ [p.1]) (p.1 :: em) _ hext
              (fun a ha => by simp at ha ⊢; tauto)⟩

theorem nodup_keys_inj :
    ∀ (l : List (String × List String)) (p q : String × List String),
    (l.map Prod.fst).Nodup → p ∈ l → q ∈ l → p.1 = q.1 → p = q
  | a :: l, p, q, hnd, hp, hq, hpq => by
      simp only [List.map_cons, List.nodup_cons] at hnd
      cases hp with
      | head =>
          cases hq with
          | head => rfl
          | tail _ hq =>
              exfalso
              apply hnd.1
              rw [hpq]
              exact List.mem_map_of_mem Prod.fst hq
      | tail _ hp =>
          cases hq with
          | head =>
              exfalso
              apply hnd.1
              rw [← hpq]
              exact List.mem_map_of_mem Prod.fst hp
          | tail _ hq => exact nodup_keys_inj l p q hnd.2 hp hq hpq

theorem extends_indexOf :
    ∀ (ord : List String) (em : List String)
      (rem : List (String × List String)),
    Extends em rem ord → (rem.map Prod.fst).Nodup →
    ∀ p ∈ rem, ∀ d ∈ p.2, d ∈ em ∨ ord.indexOf d < ord.indexOf p.1
  | [], em, rem, h, _, p, hp => by rw [h] at hp; cases hp
  | x :: xs, em, rem, h, hnd, p, hp => by
      intro d hd
      obtain ⟨q, hq, hqx, hqd, hrec⟩ := h
      by_cases hpq : p = q
      · subst hpq
        exact Or.inl (hqd d hd)
      · have hp' : p ∈ eraseN rem q := (mem_eraseN_of_ne p q hpq _).mpr hp
        have hnd' : ((eraseN rem q).map Prod.fst).Nodup :=
          hnd.sublist ((sublist_eraseN q rem).map Prod.fst)
        have hpx : p.1 ≠ x := by
          intro hcon
          exact hpq (nodup_keys_inj rem p q hnd hp hq (hcon.trans hqx.symm))
        have IH := extends_indexOf xs (x :: em) (eraseN rem q) hrec hnd' p
          hp' d hd
        cases IH with
        | inl hdem =>
            cases List.mem_cons.mp hdem with
            | inl hdx =>
                subst hdx
                refine Or.inr ?_
                rw [List.indexOf_cons_self]
                rw [List.indexOf_cons_ne xs (Ne.symm hpx)]
                omega
            | inr hdem => exact Or.inl hdem
        | inr hlt =>
            refine Or.inr ?_
            rw [List.indexOf_cons_ne xs (Ne.symm hpx)]
            by_cases hdx : d = x
            · subst hdx
              rw [List.indexOf_cons_self]
              omega
            · rw [List.indexOf_cons_ne xs (Ne.symm hdx)]
              omega

theorem getDepMap_ok (registry : Registry) (external : List String)
    (g : List (String × List String))
    (h : get_dependency_map_with_external_dependencies registry external =
      .ok g) :
    g = registry.filterMap (fun p =>
      if external.contains p.1 then none
      else some (p.1, (container_hard_refs p.2).filter
        (fun d => (registry.map Prod.fst).contains d &&
          !external.contains d))) := by
  simp only [get_dependency_map_with_external_dependencies] at h
  cases hf : (registry.map (fun p => container_refs p.2)).flatten.find?
      (fun r => !((registry.map Prod.fst).contains r ||
        external.contains r)) with
  | some r => rw [hf] at h; cases h
  | none =>
      rw [hf] at h
      injection h with h
      exact h.symm

theorem depMap_keys (registry0 : Registry) (external : List String) :
    ∀ registry : Registry,
    (registry.filterMap (fun p =>
      if external.contains p.1 then none
      else some (p.1, (container_hard_refs p.2).filter
        (fun d => (registry0.map Prod.fst).contains d &&
          !external.contains d)))).map Prod.fst =
      (registry.map Prod.fst).filter (fun n => !external.contains n)
  | [] => rfl
  | p :: rest => by
      by_cases hc : p.1 ∈ external
      · simp [List.filterMap_cons, List.filter_cons, hc]
        simpa using depMap_keys registry0 external rest
      · simp [List.filterMap_cons, List.filter_cons, hc]
        simpa using depMap_keys registry0 external rest

/-- Claim C3: `best_effort_topological_sort` over the dependency map always
returns an order listing every container of the map (so a cyclic graph does
not make the analyzer fail, the remainder being appended deterministically
in map order by the fallback), and whenever the hard-dependency graph is
acyclic the order is a valid topological order: every container appears
strictly after all containers it hard-depends on. -/
theorem C3_topological_sort :
    ∀ (registry : Registry) (external : List String)
      (g : List (String × List String)),
    get_dependency_map_with_external_dependencies registry external =
      .ok g →
    List.Perm (best_effort_topological_sort g) (g.map Prod.fst)
    ∧ ((registry.map Prod.fst).Nodup → HardDepAcyclic g →
        IsTopoOrder g (best_effort_topological_sort g)) := by
  intro registry external g hok
  constructor
  · have h := kahnLoop_perm g.length g []
    simpa [best_effort_topological_sort] using h
  · intro hnd hacy
    have hgnd : (g.map Prod.fst).Nodup := by
      rw [getDepMap_ok registry external g hok,
        depMap_keys registry external registry]
      exact hnd.filter _
    obtain ⟨ord, hord⟩ := hacy
    obtain ⟨tail, heq, hext⟩ := kahn_main g.length g [] (Nat.le_refl _)
      ⟨ord, hord⟩
    have hsort : best_effort_topological_sort g = tail := by
      simp only [best_effort_topological_sort, heq, List.nil_append]
    rw [hsort]
    refine ⟨extends_perm tail [] g hext, ?_⟩
    intro p hp d hd
    cases extends_indexOf tail [] g hext hgnd p hp d hd with
    | inl h => cases h
    | inr h => exact h

/-- Witness for C3 on the acyclic registry `{A: NewTypeStruct(B), B}`: the
analysis succeeds, the graph is acyclic, and the emitted order is a valid
topological order. -/
theorem C3_witness :
    get_dependency_map_with_external_dependencies
        [("A", ContainerFormat.NewTypeStruct (Format.TypeName "B")),
         ("B", ContainerFormat.UnitStruct)] [] =
      .ok [("A", ["B"]), ("B", [])]
    ∧ IsTopoOrder [("A", ["B"]), ("B", [])]
        (best_effort_topological_sort [("A", ["B"]), ("B", [])]) := by
  refine ⟨rfl, ?_⟩
  refine (C3_topological_sort
    [("A", ContainerFormat.NewTypeStruct (Format.TypeName "B")),
     ("B", ContainerFormat.UnitStruct)] [] [("A", ["B"]), ("B", [])]
    rfl).2 (by decide) ?_
  refine ⟨["B", "A"], ⟨("B", []), by decide, rfl, by decide, ?_⟩⟩
  show Extends ["B"] (eraseN [("A", ["B"]), ("B", [])] ("B", [])) ["A"]
  refine ⟨("A", ["B"]), by decide, rfl, by decide, ?_⟩
  show eraseN (eraseN [("A", ["B"]), ("B", [])] ("B", [])) ("A", ["B"]) = []
  decide

/-- The doc-comment paths looked up while rendering one variant: the
variant's own path, plus one per field when the variant is struct-like. -/
def variantCommentPaths (base : String) (kv : Nat × Named VariantFormat) :
    List (List String) :=
  [base, kv.2.name] :: (match kv.2.value with
    | .Struct fields => fields.map (fun f => [base, kv.2.name, f.name])
    | _ => [])

/-- The doc-comment paths looked up while rendering one container. -/
def containerCommentPaths (name : String) (format : ContainerFormat) :
    List (List String) :=
  [name] :: (match format with
    | .Struct fields => fields.map (fun f => [name, f.name])
    | .Enum variants => variants.flatMap (variantCommentPaths name)
    | _ => [])

/-- The doc-comment paths looked up over a whole emission run. -/
def runCommentPaths (registry : Registry) : List String → List (List String)
  | [] => []
  | n :: rest =>
      containerCommentPaths n ((registryGet registry n).getD .UnitStruct) ++
        runCommentPaths registry rest

/-- Uniqueness of the component names inside one container: unique field
names, unique variant names, unique field names inside each struct-like
variant. -/
def containerNamesNodup : ContainerFormat → Prop
  | .Struct fields => (fields.map Named.name).Nodup
  | .Enum variants =>
      (variants.map (fun kv => kv.2.name)).Nodup ∧
        ∀ kv ∈ variants, match kv.2.value with
          | VariantFormat.Struct fields => (fields.map Named.name).Nodup
          | _ => True
  | _ => True

theorem mem_variantCommentPaths_second (base : String)
    (kv : Nat × Named VariantFormat) (path : List String) :
    path ∈ variantCommentPaths base kv →
    path.head? = some base ∧ path.tail.head? = some kv.2.name := by
  intro h
  simp only [variantCommentPaths, List.mem_cons] at h
  cases h with
  | inl h => subst h; exact ⟨rfl, rfl⟩
  | inr h =>
      cases hv : kv.2.value with
      | Struct fields =>
          rw [hv] at h
          obtain ⟨f, _, hf⟩ := List.mem_map.mp h
          subst hf
          exact ⟨rfl, rfl⟩
      | Unit => rw [hv] at h; cases h
      | NewType f => rw [hv] at h; cases h
      | Tuple fs => rw [hv] at h; cases h
      | Variable => rw [hv] at h; cases h

theorem variantCommentPaths_nodup (base : String)
    (kv : Nat × Named VariantFormat)
    (h : match kv.2.value with
      | VariantFormat.Struct fields => (fields.map Named.name).Nodup
      | _ => True) :
    (variantCommentPaths base kv).Nodup := by
  cases hv : kv.2.value with
  | Struct fields =>
      rw [hv] at h
      simp only [variantCommentPaths, hv]
      refine List.nodup_cons.mpr ⟨?_, ?_⟩
      · intro hmem
        obtain ⟨f, _, hf⟩ := List.mem_map.mp hmem
        cases hf
      · have : (fields.map (fun f => [base, kv.2.name, f.name])) =
            (fields.map Named.name).map (fun s => [base, kv.2.name, s]) := by
          rw [List.map_map]; rfl
        rw [this]
        refine h.map ?_
        intro a b hab
        simpa using hab
  | Unit => simp [variantCommentPaths, hv]
  | NewType f => simp [variantCommentPaths, hv]
  | Tuple fs => simp [variantCommentPaths, hv]
  | Variable => simp [variantCommentPaths, hv]

theorem mem_containerCommentPaths_head (name : String)
    (format : ContainerFormat) (path : List String) :
    path ∈ containerCommentPaths name format → path.head? = some name := by
  intro h
  simp only [containerCommentPaths, List.mem_cons] at h
  cases h with
  | inl h => subst h; rfl
  | inr h =>
      cases format with
      | Struct fields =>
          obtain ⟨f, _, hf⟩ := List.mem_map.mp h
          subst hf; rfl
      | Enum variants =>
          obtain ⟨kv, _, hkv⟩ := List.mem_flatMap.mp h
          exact (mem_variantCommentPaths_second name kv path hkv).1
      | UnitStruct => cases h
      | NewTypeStruct f => cases h
      | TupleStruct fs => cases h

theorem containerCommentPaths_nodup (name : String)
    (format : ContainerFormat) (h : containerNamesNodup format) :
    (containerCommentPaths name format).Nodup := by
  cases format with
  | UnitStruct => simp [containerCommentPaths]
  | NewTypeStruct f => simp [containerCommentPaths]
  | TupleStruct fs => simp [containerCommentPaths]
  | Struct fields =>
      simp only [containerCommentPaths]
      refine List.nodup_cons.mpr ⟨?_, ?_⟩
      · intro hmem
        obtain ⟨f, _, hf⟩ := List.mem_map.mp hmem
        cases hf
      · have heq : (fields.map (fun f => [name, f.name])) =
            (fields.map Named.name).map (fun s => [name, s]) := by
          rw [List.map_map]; rfl
        rw [heq]
        refine List.Nodup.map ?_ h
        intro a b hab
        simpa using hab
  | Enum variants =>
      obtain ⟨hnames, hfields⟩ := h
      simp only [containerCommentPaths]
      refine List.nodup_cons.mpr ⟨?_, ?_⟩
      · intro hmem
        obtain ⟨kv, _, hkv⟩ := List.mem_flatMap.mp hmem
        have := (mem_variantCommentPaths_second name kv [name] hkv).2
        simp at this
      · refine List.nodup_flatMap.mpr ⟨?_, ?_⟩
        · exact fun kv hkv =>
            variantCommentPaths_nodup name kv (hfields kv hkv)
        · have hdisj : ∀ (a b : Nat × Named VariantFormat),
              a.2.name ≠ b.2.name →
              Function.onFun List.Disjoint (variantCommentPaths name) a b := by
            intro a b hne path hpa hpb
            have h1 := (mem_variantCommentPaths_second name a path hpa).2
            have h2 := (mem_variantCommentPaths_second name b path hpb).2
            rw [h1] at h2
            exact hne (Option.some.inj h2)
          have hpw := List.pairwise_map.mp hnames
          exact hpw.imp (fun hne => hdisj _ _ hne)

theorem mem_runCommentPaths_head (registry : Registry) :
    ∀ (entries : List String) (path : List String),
    path ∈ runCommentPaths registry entries →
    ∃ n ∈ entries, path.head? = some n
  | n :: rest, path, h => by
      simp only [runCommentPaths, List.mem_append] at h
      cases h with
      | inl h =>
          exact ⟨n, List.mem_cons_self n rest,
            mem_containerCommentPaths_head n _ path h⟩
      | inr h =>
          obtain ⟨n', hn', hh⟩ := mem_runCommentPaths_head registry rest path h
          exact ⟨n', List.mem_cons_of_mem n hn', hh⟩

theorem runCommentPaths_nodup (registry : Registry) :
    ∀ entries : List String,
    entries.Nodup →
    (∀ n ∈ entries,
      containerNamesNodup ((registryGet registry n).getD .UnitStruct)) →
    (runCommentPaths registry entries).Nodup
  | [], _, _ => List.nodup_nil
  | n :: rest, hnd, hnames => by
      simp only [runCommentPaths]
      rw [List.nodup_append]
      obtain ⟨hn, hnd'⟩ := List.nodup_cons.mp hnd
      refine ⟨containerCommentPaths_nodup n _
          (hnames n (List.mem_cons_self n rest)),
        runCommentPaths_nodup registry rest hnd'
          (fun m hm => hnames m (List.mem_cons_of_mem n hm)), ?_⟩
      intro path hpa hpb
      have h1 := mem_containerCommentPaths_head n _ path hpa
      obtain ⟨n', hn', h2⟩ := mem_runCommentPaths_head registry rest path hpb
      rw [h1] at h2
      exact hn (Option.some.inj h2 ▸ hn')

/-- The per-container output chunks of the emission loop, each computed by
`output_container` from the empty accumulator with the known set current at
that position. -/
def emitChunks (registry : Registry) (comments : DocComments)
    (with_derive_macros : Bool) : List String → List String → List String
  | [], _ => []
  | n :: rest, known =>
      (output_container "" comments with_derive_macros true n
        ((registryGet registry n).getD .UnitStruct) known).1 ::
        emitChunks registry comments with_derive_macros rest (known ++ [n])

theorem emitLoop_join (registry : Registry) (comments : DocComments)
    (with_derive_macros : Bool) :
    ∀ (entries known : List String) (acc : String),
    (∀ n ∈ entries, ∃ c, registryGet registry n = some c ∧
      containerOk c = true) →
    emitLoop registry comments with_derive_macros entries known acc =
      (acc ++ concatAll (emitChunks registry comments with_derive_macros
        entries known), true)
  | [], known, acc, _ => by simp [emitLoop, emitChunks, concatAll]
  | n :: rest, known, acc, h => by
      obtain ⟨c, hc, hok⟩ := h n (List.mem_cons_self n rest)
      rw [emitLoop]
      rw [hc]
      simp only
      rw [output_container_acc]
      rw [output_container_ok "" comments with_derive_macros true n c known
        hok]
      simp only [if_true]
      rw [emitLoop_join registry comments with_derive_macros rest
        (known ++ [n]) _ (fun m hm => h m (List.mem_cons_of_mem n hm))]
      simp only [emitChunks, hc, Option.getD_some, concatAll]
      simp [String.append_assoc]

/-- Claim C8: doc-comment placement.  (1) A qualified path with no entry in
the doc-comment map produces no output.  (2) A struct container's rendering
decomposes as: the container's comment directly above the container header,
then, per field in order, that field's comment (path `[container, field]`)
directly above that field's line — so a present comment is emitted at
exactly the element its path denotes.  (3) A full run is the preamble
followed by the per-container chunks in emission order, each produced by
`output_container` (whose comment lookups are exactly the container's
qualified paths).  (4) Across a run with unique container names and unique
field/variant names, all comment paths looked up are pairwise distinct, so
no comment can also be emitted anywhere else. -/
theorem C8_doc_comment_placement :
    (∀ (acc : String) (comments : DocComments) (indentation : Nat)
        (path : List String),
      docLookup comments path = none →
      output_comment acc comments indentation path = acc)
    ∧ (∀ (comments : DocComments)
        (with_derive_macros track_visibility : Bool) (name : String)
        (fields : List (Named Format)) (known_sizes : List String)
        (acc : String),
      (∀ f ∈ fields, f.value.hasVariable = false) →
      output_container acc comments with_derive_macros track_visibility name
          (.Struct fields) known_sizes =
        (acc ++ output_comment "" comments 0 [name] ++
          ((if with_derive_macros = true then
            "#[derive(Serialize, Deserialize, Clone, Debug, PartialEq, PartialOrd)]\n"
          else "") ++
            (if track_visibility = true then "pub " else "")) ++
          "struct " ++ name ++ " \x7b\n" ++
          concatAll (fields.map (field_chunk comments 4 [name]
            track_visibility known_sizes)) ++ "\x7d\n\n", true))
    ∧ (∀ (registry : Registry) (comments : DocComments)
        (with_derive_macros : Bool) (ext : ExternalDefinitions)
        (g : List (String × List String)),
      get_dependency_map_with_external_dependencies registry
        (external_names_of ext) = .ok g →
      (∀ n ∈ best_effort_topological_sort g, ∃ c,
        registryGet registry n = some c ∧ containerOk c = true) →
      output_with_external_dependencies_and_comments with_derive_macros
        registry ext comments =
        (output_preamble with_derive_macros ext ++
          concatAll (emitChunks registry comments with_derive_macros
            (best_effort_topological_sort g) (external_names_of ext)),
          true))
    ∧ (∀ (registry : Registry) (entries : List String),
      entries.Nodup →
      (∀ n ∈ entries,
        containerNamesNodup ((registryGet registry n).getD .UnitStruct)) →
      (runCommentPaths registry entries).Nodup) := by
  refine ⟨fun acc comments indentation path h => ?_,
    fun comments wdm tv name fields ks acc h => ?_,
    fun registry comments wdm ext g hok hwf => ?_,
    fun registry entries hnd hnames =>
      runCommentPaths_nodup registry entries hnd hnames⟩
  · unfold output_comment
    rw [h]
  · simp only [output_container]
    rw [output_comment_acc,
      output_fields_join comments 4 [name] tv ks fields _ h]
    simp [String.append_assoc]
  · simp only [output_with_external_dependencies_and_comments, hok]
    exact emitLoop_join registry comments wdm
      (best_effort_topological_sort g) (external_names_of ext) _ hwf

/-- Witness for C8: the single-container registry `{Test: Struct[a: U64]}`
with the comment map `{[Test, a] ↦ "doc"}` renders the comment exactly once,
directly above field `a`. -/
theorem C8_witness :
    output_with_external_dependencies_and_comments false
        [("Test", ContainerFormat.Struct [⟨"a", Format.U64⟩])] []
        [(["Test", "a"], "doc")] =
      ("#![allow(unused_imports)]\nuse std::collections::BTreeMap as Map;\n\ntype Bytes = Vec<u8>;\n\npub struct Test \x7b\n\n    /// doc\n     pub a: u64,\n\x7d\n\n",
        true) := by
  have h := C8_doc_comment_placement.2.2.1
    [("Test", ContainerFormat.Struct [⟨"a", Format.U64⟩])]
    [(["Test", "a"], "doc")] false [] [("Test", [])] rfl
    (by
      intro n hn
      have : n = "Test" := by
        simpa [best_effort_topological_sort, kahnLoop, depsSat, eraseN]
          using hn
      subst this
      exact ⟨ContainerFormat.Struct [⟨"a", Format.U64⟩], rfl, by decide⟩)
  rw [h]
  rfl

end SerdeGen
